import Mathlib

/-!
# ConcertsFinder — verification of the matching/ranking core

Shallow embedding of the ConcertsFinder sources (`src/server.ts`,
`src/ticketmaster.ts`, `src/rank.ts`) and proofs about the spec claims.

Modelling conventions, used throughout:
* JS strings are Lean `String`s (lists of unicode scalar values).
* Optional / possibly-`undefined` values are `Option`s; JS truthiness of a
  string `s` is `s ≠ ""` for present strings and `false` for `undefined`.
* JS numbers that the code uses as exact quantities (scores, parsed dates,
  distances) are `ℤ`/`ℚ`.  The transcendental haversine formula and
  `Date.parse` are kept as explicit function parameters, since IEEE floats
  and the date grammar are outside the rational model; every claim is
  quantified over (or instantiated at) those parameters.
* `String.prototype.toLowerCase`, `String.prototype.normalize("NFKD")` and
  `toLowerCase`-style per-character operations are modelled per character,
  exactly on the Basic Latin range that the pipeline's output alphabet
  `[a-z0-9 ]` lives in, plus representative precomposed Latin letters.
-/

namespace ConcertsFinder

/-! ## NameNormalizer (`norm`, ticketmaster.ts lines 317–325)

The source is the chain
`(s || "").normalize("NFKD").replace(/[̀-ͯ]/g, "")
  .replace(/[’’]/g, "'").toLowerCase().replace(/[^a-z0-9]+/g, " ").trim()`.
Each stage below embeds one link of that chain, in order. -/

/-- Membership in the combining-diacritical-marks block `[̀-ͯ]`. -/
def combining (c : Char) : Bool :=
  0x300 ≤ c.toNat && c.toNat ≤ 0x36F

/-- Per-character NFKD decomposition table.  It is exact on the Basic Latin
range (which decomposes to itself) and on the precomposed Latin letters
listed; other characters are left alone, which is the behaviour NFKD has on
every character the later pipeline stages can keep. -/
def nfkdChar (c : Char) : List Char :=
  if c = 'é' then ['e', Char.ofNat 0x301]
  else if c = 'É' then ['E', Char.ofNat 0x301]
  else [c]

/-- The `replace(/[’’]/g, "'")` stage: both regex alternatives are the
right single quotation mark U+2019, replaced by an ASCII apostrophe. -/
def aposChar (c : Char) : Char :=
  if c.toNat = 0x2019 then Char.ofNat 0x27 else c

/-- Per-character `toLowerCase`, exact on ASCII (the only characters that can
still matter after NFKD stripping for the `[a-z0-9]` filter that follows). -/
def lowerChar (c : Char) : Char :=
  if 0x41 ≤ c.toNat && c.toNat ≤ 0x5A then Char.ofNat (c.toNat + 0x20) else c

/-- The character class `[a-z0-9]` of the run-collapsing replace. -/
def alnumLower (c : Char) : Bool :=
  (0x61 ≤ c.toNat && c.toNat ≤ 0x7A) || (0x30 ≤ c.toNat && c.toNat ≤ 0x39)

/-- The `replace(/[^a-z0-9]+/g, " ")` stage: every maximal run of characters
outside `[a-z0-9]` becomes a single space.  The boolean flag records whether
the previous character belonged to such a run. -/
def squashAux : Bool → List Char → List Char
  | _, [] => []
  | inRun, c :: cs =>
    if alnumLower c then c :: squashAux false cs
    else if inRun then squashAux true cs
    else ' ' :: squashAux true cs

/-- Space test used by `trim` (after the previous stage the only whitespace
that can occur is an ASCII space). -/
def isSp (c : Char) : Bool := c == ' '

/-- The final `.trim()`: drop leading and trailing spaces. -/
def trimSpaces (l : List Char) : List Char :=
  ((l.dropWhile isSp).reverse.dropWhile isSp).reverse

/-- The whole pipeline on a list of characters, stage by stage in source
order. -/
def normList (l : List Char) : List Char :=
  trimSpaces (squashAux false
    ((((l.flatMap nfkdChar).filter fun c => !combining c).map aposChar).map lowerChar))

/-- `norm(s?: string)` from ticketmaster.ts.  `none` models an absent
argument; `(s || "")` turns it into the empty string. -/
def norm (s : Option String) : String :=
  String.mk (normList (s.getD "").data)

/-- Model of `String.prototype.toLowerCase` on whole strings (used by the
dedupe key, `uniquePreserveOrder`, the ignore filter and the ranker). -/
def lowerStr (s : String) : String :=
  String.mk (s.data.map lowerChar)

/-! ## Event mapper (`mapEvents`, ticketmaster.ts lines 376–433)

Data model of the raw Ticketmaster records that `mapEvents` consumes and of
the `EventItem`s it produces. -/

/-- `TMAttraction`: an embedded performer reference (`{ id, name }`). -/
structure TMAttraction where
  id : String
  name : String
deriving DecidableEq, Repr

/-- `TMVenue`: the embedded venue.  The nested `city.name`, `state.name`,
`country.name` objects are flattened to their name strings; the decimal
latitude/longitude strings are modelled as the rationals that `parseFloat`
yields on them (absent or empty strings are `none`, matching the source's
truthiness test before `parseFloat`). -/
structure TMVenue where
  name : Option String
  city : Option String
  state : Option String
  country : Option String
  lat : Option ℚ
  lon : Option ℚ
deriving DecidableEq, Repr

/-- `TMEvent`: a raw event record.  `startDateTime` is
`dates?.start?.dateTime`; `attractions` and `venues` model
`_embedded?.attractions || []` and `_embedded?.venues || []`. -/
structure TMEvent where
  id : String
  name : String
  url : String
  startDateTime : Option String
  attractions : List TMAttraction
  venues : List TMVenue
deriving DecidableEq, Repr

/-- `EventItem`: the normalized candidate produced by `mapEvents` and
consumed by `dedupe`/`rank`.  Fields follow the exported TS type. -/
structure EventItem where
  source : String
  source_id : String
  event_name : String
  artist_name : String
  venue_name : Option String
  city : Option String
  state : Option String
  country : Option String
  lat : Option ℚ
  lon : Option ℚ
  start_utc : Option String
  url : String
deriving DecidableEq, Repr

/-- JS truthiness of a possibly-`undefined` string. -/
def truthy : Option String → Bool
  | none => false
  | some s => s != ""

/-- JS `a || b` for a possibly-`undefined` string `a` and a string `b`. -/
def jsOrStr : Option String → String → String
  | none, b => b
  | some s, b => if s = "" then b else s

/-- The word class `\w = [A-Za-z0-9_]` of JS regexes, for `\b` boundaries. -/
def jsWordChar (c : Char) : Bool :=
  (0x30 ≤ c.toNat && c.toNat ≤ 0x39) || (0x41 ≤ c.toNat && c.toNat ≤ 0x5A)
    || (c.toNat == 0x5F) || (0x61 ≤ c.toNat && c.toNat ≤ 0x7A)

/-- The alternatives of the `bannedTitle` regex, in source order. -/
def bannedPhrases : List (List Char) :=
  ["tribute".data, "a tribute to".data, "music of".data, "the music of".data,
   "performs the music of".data, "performing the music of".data,
   "plays the music of".data, "vs".data, "night".data, "party".data,
   "orchestra".data, "symphony".data, "philharmonic".data, "candlelight".data,
   "string quartet".data, "ensemble".data, "experience".data,
   "film concert".data, "in concert with".data]

/-- True when position `j` of `t` is not a `\w` character (or is past the
end), i.e. a `\b` word boundary can sit next to it. -/
def nonWordAt (t : List Char) (j : ℕ) : Bool :=
  match (t.drop j).head? with
  | none => true
  | some c => !jsWordChar c

/-- The phrase `w` occurs in `t` starting at index `i`, with `\b` word
boundaries on both sides (every alternative starts and ends with a `\w`
character, so `\b` demands a non-word character or the string edge there). -/
def phraseAt (t w : List Char) (i : ℕ) : Bool :=
  ((t.drop i).take w.length == w) && nonWordAt t (i + w.length)
    && (i == 0 || nonWordAt t (i - 1))

/-- `bannedTitle.test(titleN)`: some alternative occurs somewhere in `t`
under `\b` boundaries.  Alternation order is irrelevant for `test`. -/
def bannedTitle (t : List Char) : Bool :=
  (List.range (t.length + 1)).any fun i => bannedPhrases.any fun w => phraseAt t w i

/-- String-level wrapper for the title guard regex test. -/
def bannedTitleStr (s : String) : Bool :=
  bannedTitle s.data

/-- The per-performer acceptance test — the `ok` expression of the
`mapEvents` loop, with `byId = ensureId && a.id === ensureId` and
`byName = nExpected ? norm(a.name) === nExpected : false`.  `nExpected` is
passed in, as in the source it is computed once per call. -/
def performerOk (ensureId expectedName : Option String) (nExpected : String)
    (a : TMAttraction) : Bool :=
  let byId := truthy ensureId && (a.id == ensureId.getD "")
  let byName := if nExpected != "" then norm (some a.name) == nExpected else false
  if truthy ensureId && truthy expectedName then byId && byName
  else if truthy ensureId then byId
  else if nExpected != "" then byName
  else false

/-- One iteration of the `mapEvents` loop: find the first accepted embedded
performer, apply the title guard when not on the id path, and emit at most
one `EventItem` for the record. -/
def mapEvent1 (artistName : String) (ensureId expectedName : Option String)
    (ev : TMEvent) : Option EventItem :=
  let nExpected := norm (some (jsOrStr expectedName artistName))
  match ev.attractions.find? (performerOk ensureId expectedName nExpected) with
  | none => none
  | some matched =>
    if !truthy ensureId && nExpected != "" && bannedTitleStr (norm (some ev.name)) then
      none
    else
      let v := ev.venues.head?
      some
        { source := "tm"
          source_id := ev.id
          event_name := ev.name
          artist_name := if matched.name = "" then artistName else matched.name
          venue_name := v.bind (·.name)
          city := v.bind (·.city)
          state := v.bind (·.state)
          country := v.bind (·.country)
          lat := v.bind (·.lat)
          lon := v.bind (·.lon)
          start_utc := ev.startDateTime
          url := ev.url }

/-- `mapEvents(artistName, events, ensureId?, expectedName?)`: the loop over
`events`, one optional candidate per record. -/
def mapEvents (artistName : String) (events : List TMEvent)
    (ensureId expectedName : Option String) : List EventItem :=
  events.filterMap (mapEvent1 artistName ensureId expectedName)

/-! ## EventDeduper (`dedupe`, server.ts lines 142–152) and
ArtistPoolBuilder helpers (`uniquePreserveOrder`, lines 154–162)

Both source functions are the same seen-set loop, differing only in the key
function, so the loop is embedded once. -/

/-- The structural bound of the generic `dedupe<T>`: the five optional key
fields plus `venue_name` as a representative non-key payload field. -/
structure DedupItem where
  source : Option String
  source_id : Option String
  url : Option String
  event_name : Option String
  start_utc : Option String
  venue_name : Option String
deriving DecidableEq, Repr

/-- The composite key template literal of `dedupe`:
`` `${e.source || "tm"}|${e.source_id || ""}|${e.url || ""}|${(e.event_name || "").toLowerCase()}|${e.start_utc || ""}` ``. -/
def keyOf (e : DedupItem) : String :=
  (match e.source with
    | some s => if s = "" then "tm" else s
    | none => "tm")
    ++ "|" ++ e.source_id.getD "" ++ "|" ++ e.url.getD "" ++ "|"
    ++ lowerStr (e.event_name.getD "") ++ "|" ++ e.start_utc.getD ""

/-- The shared seen-set loop of `dedupe` and `uniquePreserveOrder`: skip an
item whose key was already seen, otherwise record the key and keep the
item.  The JS `Set` of seen keys is modelled as the list of keys added so
far. -/
def dedupeLoop (key : α → String) : List String → List α → List α
  | _, [] => []
  | seen, e :: rest =>
    if seen.contains (key e) then dedupeLoop key seen rest
    else e :: dedupeLoop key (key e :: seen) rest

/-- `dedupe(items)` from server.ts: the loop with the composite key. -/
def dedupe (items : List DedupItem) : List DedupItem :=
  dedupeLoop keyOf [] items

/-- `uniquePreserveOrder(names)` from server.ts: the loop keyed by
`n.toLowerCase()`, pushing the original spelling. -/
def uniquePreserveOrder (names : List String) : List String :=
  dedupeLoop lowerStr [] names

/-- The artist-pool construction of the `/api/events` route (server.ts
lines 195–209): filter each tier list against the ignore set
(`ignoreSet.has(n.toLowerCase())`), concatenate Liked ++ Top ++ Followed,
deduplicate case-insensitively, and truncate to `cap`. -/
def buildPool (liked top followed ignore : List String) (cap : ℕ) : List String :=
  (uniquePreserveOrder
    ((liked.filter fun n => !(ignore.contains (lowerStr n)))
      ++ (top.filter fun n => !(ignore.contains (lowerStr n)))
      ++ (followed.filter fun n => !(ignore.contains (lowerStr n))))).take cap

/-! ## Ranker (`rank`, rank.ts)

`Date.parse`/`Date.now` and the float haversine body are explicit
parameters `pd`/`now`/`hav`; everything else is embedded from the source.
The sort models `Array.prototype.sort` with the source comparator as a
stable insertion sort (V8's sort is stable; for a consistent comparator
every stable sort produces the same list). -/

/-- `RankCtx` from rank.ts (the unused `profile` tag is omitted). -/
structure RankCtx where
  userLat : Option ℚ
  userLon : Option ℚ
  likedArtistNames : List String
  topArtistNames : List String
  followedArtistNames : List String
  preferredArtistNames : Option (List String)

/-- `toLc(s?: string)` from rank.ts: `(s || "").toLowerCase()`. -/
def toLc (s : Option String) : String :=
  lowerStr (s.getD "")

/-- `distMiles` from rank.ts: `none` models the `POSITIVE_INFINITY` result
of the missing/NaN-coordinate guard; on present coordinates the value is
the abstract haversine `hav`. -/
def distMiles (hav : ℚ → ℚ → ℚ → ℚ → ℚ)
    (aLat aLon bLat bLon : Option ℚ) : Option ℚ :=
  match aLat, aLon, bLat, bLon with
  | some p, some q, some r, some s => some (hav p q r s)
  | _, _, _, _ => none

/-- The distance of an event from the user, as `locScore` and the sort
comparator compute it. -/
def evDist (hav : ℚ → ℚ → ℚ → ℚ → ℚ) (ctx : RankCtx) (e : EventItem) : Option ℚ :=
  distMiles hav ctx.userLat ctx.userLon e.lat e.lon

/-- `locScore` from rank.ts: the step function of distance, `0` when the
distance is not finite. -/
def locScore (hav : ℚ → ℚ → ℚ → ℚ → ℚ) (ctx : RankCtx) (e : EventItem) : ℤ :=
  match evDist hav ctx e with
  | none => 0
  | some d =>
    if d ≤ 15 then 6 else if d ≤ 50 then 5 else if d ≤ 120 then 4
    else if d ≤ 200 then 3 else if d ≤ 400 then 1 else 0

/-- `Math.round`: round half toward positive infinity, `⌊q + 1/2⌋`. -/
def jsRound (q : ℚ) : ℤ :=
  Rat.floor (q + 1 / 2)

/-- `daysUntil(iso?)` from rank.ts: `9999` for a falsy or unparseable
argument, otherwise whole days from `now` floored at `0`. -/
def daysUntil (pd : String → Option ℤ) (now : ℤ) (iso : Option String) : ℤ :=
  match iso with
  | none => 9999
  | some s =>
    if s = "" then 9999
    else
      match pd s with
      | none => 9999
      | some t => max 0 (jsRound ((t - now : ℚ) / 86400000))

/-- `dateScore` from rank.ts. -/
def dateScore (pd : String → Option ℤ) (now : ℤ) (e : EventItem) : ℤ :=
  let d := daysUntil pd now e.start_utc
  if d ≤ 14 then 2 else if d ≤ 45 then 1 else if d ≤ 180 then 1 else 0

/-- `artistScore` from rank.ts: tier lookup on the lowercased artist name,
falling back (via JS `||` on the lowercased strings) to the lowercased
event title.  `preferred` is `ctx.preferredArtistNames ?? new Set()`. -/
def artistScore (ctx : RankCtx) (e : EventItem) : ℤ :=
  let nameLc :=
    if toLc (some e.artist_name) = "" then toLc (some e.event_name)
    else toLc (some e.artist_name)
  if ctx.likedArtistNames.contains nameLc then 140
  else if ctx.topArtistNames.contains nameLc then 95
  else if ctx.followedArtistNames.contains nameLc then 75
  else if (ctx.preferredArtistNames.getD []).contains nameLc then 40
  else 0

/-- A scored event: `{ ...e, _score }`. -/
structure Scored where
  ev : EventItem
  score : ℤ
deriving DecidableEq, Repr

/-- `Date.parse(x.start_utc || "")` as the comparator evaluates it. -/
def parseStart (pd : String → Option ℤ) (e : EventItem) : Option ℤ :=
  pd (e.start_utc.getD "")

/-- Lexicographic comparison of character lists by scalar value — the model
of `localeCompare`'s collation. -/
def strLtData : List Char → List Char → Bool
  | [], [] => false
  | [], _ :: _ => true
  | _ :: _, [] => false
  | a :: as, b :: bs =>
    if a.toNat < b.toNat then true
    else if b.toNat < a.toNat then false
    else strLtData as bs

/-- Strictly smaller string under the `localeCompare` model. -/
def strLt (s t : String) : Bool :=
  strLtData s.data t.data

/-- Smaller-or-equal string under the `localeCompare` model. -/
def strLe (s t : String) : Bool :=
  !strLt t s

/-- Sign of a JS numeric comparator branch `x - y` (or of the branch pair
`if (x !== y) return x - y`): `lt` puts the first argument first. -/
def cmpOf {α : Type} [LinearOrder α] (x y : α) : Ordering :=
  if x < y then .lt else if y < x then .gt else .eq

/-- Sign of `localeCompare` under the lexicographic collation model. -/
def cmpStr (s t : String) : Ordering :=
  if strLt s t then .lt else if strLt t s then .gt else .eq

/-- The `scored.sort` comparator of rank.ts, branch by branch:
descending `_score`; then the earlier parsed date when both dates parse
(a pair with at most one parseable date falls through); then the smaller
distance, where a missing distance is `+∞` and two missing distances
compare equal (`Infinity !== Infinity` is false); then `localeCompare` on
`event_name`, modelled as lexicographic string order. -/
def cmpRank (hav : ℚ → ℚ → ℚ → ℚ → ℚ) (pd : String → Option ℤ)
    (ctx : RankCtx) (a b : Scored) : Ordering :=
  let scoreO := cmpOf b.score a.score
  let dateO :=
    match parseStart pd a.ev, parseStart pd b.ev with
    | some ad, some bd => cmpOf ad bd
    | _, _ => Ordering.eq
  let distO :=
    match evDist hav ctx a.ev, evDist hav ctx b.ev with
    | some da, some db => cmpOf da db
    | some _, none => Ordering.lt
    | none, some _ => Ordering.gt
    | none, none => Ordering.eq
  let nameO := cmpStr a.ev.event_name b.ev.event_name
  ((scoreO.then dateO).then distO).then nameO

/-- The sort's weak order: `a` may come before `b` when the comparator does
not demand the opposite. -/
def rankRel (hav : ℚ → ℚ → ℚ → ℚ → ℚ) (pd : String → Option ℤ)
    (ctx : RankCtx) : Scored → Scored → Prop :=
  fun a b => cmpRank hav pd ctx a b ≠ Ordering.gt

instance rankRelDecidable (hav : ℚ → ℚ → ℚ → ℚ → ℚ) (pd : String → Option ℤ)
    (ctx : RankCtx) : DecidableRel (rankRel hav pd ctx) :=
  fun _ _ => instDecidableNot

/-- `rank(events, ctx)` from rank.ts: score every event, then stable-sort
by the comparator. -/
def rank (hav : ℚ → ℚ → ℚ → ℚ → ℚ) (pd : String → Option ℤ) (now : ℤ)
    (events : List EventItem) (ctx : RankCtx) : List Scored :=
  List.insertionSort (rankRel hav pd ctx)
    (events.map fun e =>
      { ev := e
        score := artistScore ctx e + locScore hav ctx e + dateScore pd now e })

/-! ## ConcurrencyLimitedMapper (`runLimited`, server.ts lines 114–139)

A worker's JS return value is `undefined`, a scalar, or an array; a throw
is an `Except.error`.  The single-threaded event loop makes each index
claimed exactly once; the only observable scheduling effect is the order
in which item results are pushed, abstracted as the completion permutation
`sched` of the input list. -/

/-- The three shapes a worker's resolved value can take. -/
inductive JsOut (β : Type) where
  | arr : List β → JsOut β
  | val : β → JsOut β
  | undef : JsOut β

/-- How the loop body flattens one resolved value into pushes:
spread an array, push a defined scalar, skip `undefined`. -/
def flattenOut : JsOut β → List β
  | .arr l => l
  | .val v => [v]
  | .undef => []

/-- Outputs contributed by one input item: a worker that throws is caught,
logged and contributes nothing. -/
def contribution (worker : α → Except ε (JsOut β)) (x : α) : List β :=
  match worker x with
  | .error _ => []
  | .ok r => flattenOut r

/-- `runLimited(inputs, worker, limit, gapMs)`: with
`min(limit, inputs.length) = 0` no worker starts and the result is empty;
otherwise every item is processed exactly once and the result is the
flattened contributions in completion order `sched`. -/
def runLimited (inputs : List α) (worker : α → Except ε (JsOut β))
    (limit : ℕ) (sched : List α) : List β :=
  if Nat.min limit inputs.length = 0 then []
  else sched.flatMap (contribution worker)

/-! ## The `/api/events` response (server.ts line 292) -/

/-- `res.json({ count: ranked.length, events: ranked.slice(0, 220) })`. -/
def apiEventsPayload (ranked : List Scored) : ℕ × List Scored :=
  (ranked.length, ranked.take 220)

/-! ## Spec-side definitions

Definitions in this block are written from the spec's words, to be compared
with the embeddings above. -/

/-- Keep-first deduplication by a key, stated structurally as the spec
describes it: keep the head, drop every later item with the same key,
recurse. -/
def dedupeSpec (key : α → String) : List α → List α
  | [] => []
  | e :: rest => e :: dedupeSpec key (rest.filter fun y => key y != key e)
termination_by l => l.length
decreasing_by
  exact Nat.lt_succ_of_le (List.length_filter_le _ _)

/-- The composite key exactly as the claim words it: the five-field tuple
with every missing field treated as the empty string. -/
def specKeyTuple (e : DedupItem) : String × String × String × String × String :=
  (e.source.getD "", e.source_id.getD "", e.url.getD "",
    lowerStr (e.event_name.getD ""), e.start_utc.getD "")

/-- ArtistPoolBuilder as the claim words it: concatenate, drop ignored
entries, deduplicate case-insensitively keeping first occurrences,
truncate to `cap`. -/
def specArtistPool (liked top followed ignore : List String) (cap : ℕ) : List String :=
  (dedupeSpec lowerStr
    ((liked ++ top ++ followed).filter fun n => !(ignore.contains (lowerStr n)))).take cap

/-- ArtistTierScore as the claim words it: the lookup key is the lowercased
`artist_name`, falling back to the lowercased event title when the artist
name is absent; tiers are checked liked, top, followed, preferred. -/
def specArtistScore (ctx : RankCtx) (e : EventItem) : ℤ :=
  let key := if e.artist_name = "" then lowerStr e.event_name else lowerStr e.artist_name
  if ctx.likedArtistNames.contains key then 140
  else if ctx.topArtistNames.contains key then 95
  else if ctx.followedArtistNames.contains key then 75
  else if (ctx.preferredArtistNames.getD []).contains key then 40
  else 0

/-- Date tie-break of the claimed ranking order: an earlier parseable start
wins (read generously, a parseable start also beats an unparseable one). -/
def claimDateEarlier (pa pb : Option ℤ) : Bool :=
  match pa, pb with
  | some x, some y => x < y
  | some _, none => true
  | _, _ => false

/-- Dates that leave the claimed order undecided, read as generously as
possible: equal parseable dates, both unparseable, or a mixed pair. -/
def claimDateTied (pa pb : Option ℤ) : Bool :=
  match pa, pb with
  | some x, some y => x == y
  | _, _ => true

/-- Distance comparison with a missing distance as `+∞`. -/
def distLtB (da db : Option ℚ) : Bool :=
  match da, db with
  | some x, some y => x < y
  | some _, none => true
  | _, _ => false

/-- The claimed pairwise output order of C5, with every underdetermined
reading resolved in the claim's favour (either date tie-break reading is
allowed on a mixed pair, and equal names may stand in any order). -/
def claimRelW (hav : ℚ → ℚ → ℚ → ℚ → ℚ) (pd : String → Option ℤ)
    (ctx : RankCtx) (a b : Scored) : Bool :=
  (b.score < a.score)
    || ((a.score == b.score)
      && (claimDateEarlier (parseStart pd a.ev) (parseStart pd b.ev)
        || (claimDateTied (parseStart pd a.ev) (parseStart pd b.ev)
          && (distLtB (evDist hav ctx a.ev) (evDist hav ctx b.ev)
            || ((evDist hav ctx a.ev == evDist hav ctx b.ev)
              && strLe a.ev.event_name b.ev.event_name)))))

/-- The amended pairwise output order of C5: strictly greater score, or
equal score and strictly earlier parsed start, or equal starts and
strictly smaller distance (missing distance is `+∞`), or equal distances
and lexicographically smaller-or-equal event name. -/
def amendRel (hav : ℚ → ℚ → ℚ → ℚ → ℚ) (pd : String → Option ℤ)
    (ctx : RankCtx) (a b : Scored) : Prop :=
  b.score < a.score
    ∨ (a.score = b.score
      ∧ (claimDateEarlier (parseStart pd a.ev) (parseStart pd b.ev) = true
        ∨ (parseStart pd a.ev = parseStart pd b.ev
          ∧ (distLtB (evDist hav ctx a.ev) (evDist hav ctx b.ev) = true
            ∨ (evDist hav ctx a.ev = evDist hav ctx b.ev
              ∧ strLe a.ev.event_name b.ev.event_name = true)))))

instance amendRelDecidable (hav : ℚ → ℚ → ℚ → ℚ → ℚ) (pd : String → Option ℤ)
    (ctx : RankCtx) : DecidableRel (amendRel hav pd ctx) :=
  fun _ _ => by unfold amendRel; infer_instance

/-! ## Concrete instances for counterexamples and witnesses -/

/-- Event record whose only performer has the right id but a different
name — the C1 witness input. -/
def wEvIdOnly : TMEvent :=
  { id := "E1", name := "Adele Live", url := "u", startDateTime := none,
    attractions := [{ id := "K1", name := "Adelle X" }], venues := [] }

/-- Event record titled like a tribute show whose performer is the artist
itself — the C2 witness input. -/
def wEvTribute : TMEvent :=
  { id := "E2", name := "Tribute to Queen", url := "u", startDateTime := none,
    attractions := [{ id := "K9", name := "Queen" }], venues := [] }

/-- Dedupe counterexample input: missing `source`. -/
def dupMissingSource : DedupItem :=
  { source := none, source_id := some "1", url := some "u",
    event_name := some "E", start_utc := some "T", venue_name := some "V1" }

/-- Dedupe counterexample input: explicit `source = "tm"`, same other key
fields, different venue. -/
def dupTmSource : DedupItem :=
  { source := some "tm", source_id := some "1", url := some "u",
    event_name := some "E", start_utc := some "T", venue_name := some "V2" }

/-- Distance oracle of the ranker counterexample: the great-circle distance
is realized as the event's latitude (the user sits at the origin and the
events are placed due north at the wanted distances). -/
def cexHav : ℚ → ℚ → ℚ → ℚ → ℚ :=
  fun _ _ bLat _ => bLat

/-- Date parser of the ranker counterexample: two far-future instants and
everything else unparseable. -/
def cexPd : String → Option ℤ :=
  fun s => if s = "D1" then some 20000000000 else if s = "D2" then some 30000000000 else none

/-- Ranker counterexample context: user at the origin, no tier sets. -/
def cexCtx : RankCtx :=
  { userLat := some 0, userLon := some 0, likedArtistNames := [],
    topArtistNames := [], followedArtistNames := [], preferredArtistNames := none }

/-- Ranker counterexample event: parseable early date, 10 miles away. -/
def cexEvA : EventItem :=
  { source := "tm", source_id := "1", event_name := "a", artist_name := "x",
    venue_name := none, city := none, state := none, country := none,
    lat := some 10, lon := some 0, start_utc := some "D1", url := "u" }

/-- Ranker counterexample event: unparseable date, 5 miles away. -/
def cexEvB : EventItem :=
  { source := "tm", source_id := "2", event_name := "b", artist_name := "x",
    venue_name := none, city := none, state := none, country := none,
    lat := some 5, lon := some 0, start_utc := some "DX", url := "u" }

/-- Ranker counterexample event: parseable later date, 1 mile away. -/
def cexEvC : EventItem :=
  { source := "tm", source_id := "3", event_name := "c", artist_name := "x",
    venue_name := none, city := none, state := none, country := none,
    lat := some 1, lon := some 0, start_utc := some "D2", url := "u" }

/-- Ranker witness events (both dates parseable). -/
def wEvR1 : EventItem :=
  { source := "tm", source_id := "1", event_name := "p", artist_name := "x",
    venue_name := none, city := none, state := none, country := none,
    lat := some 3, lon := some 0, start_utc := some "D1", url := "u" }

/-- Second ranker witness event. -/
def wEvR2 : EventItem :=
  { source := "tm", source_id := "2", event_name := "q", artist_name := "x",
    venue_name := none, city := none, state := none, country := none,
    lat := some 7, lon := some 0, start_utc := some "D2", url := "u" }

/-- Worker of the C9 witness: item 3 throws, the others yield one output. -/
def wWorker : ℕ → Except Unit (JsOut ℕ) :=
  fun n => if n == 3 then Except.error () else Except.ok (JsOut.val (10 * n))

/-- A scored event used by the C10 witness. -/
def wScored : Scored :=
  { ev := cexEvA, score := 0 }

/-! ## Proof-support definitions -/

/-- No two adjacent spaces — the run-collapse invariant of the normalizer
pipeline. -/
def noTwoSpaces (x y : Char) : Prop :=
  ¬(x = ' ' ∧ y = ' ')

/-- Characters the normalizer's output alphabet consists of. -/
def normChar (c : Char) : Prop :=
  alnumLower c = true ∨ c = ' '

instance normCharDecidable (c : Char) : Decidable (normChar c) := by
  unfold normChar
  infer_instance

/-- The event distance as an element of `WithTop ℚ` (missing = `+∞`). -/
def wDist (hav : ℚ → ℚ → ℚ → ℚ → ℚ) (ctx : RankCtx) (e : EventItem) : WithTop ℚ :=
  match evDist hav ctx e with
  | none => ⊤
  | some d => (d : WithTop ℚ)

/-- Lexicographic sort key describing the numeric part of the comparator on
events whose start dates all parse: ascending negated score, then parsed
date, then distance with `+∞` for missing.  The final `localeCompare`
tie-break on the event name is handled separately through `strLe`. -/
def sortKey (hav : ℚ → ℚ → ℚ → ℚ → ℚ) (pd : String → Option ℤ) (ctx : RankCtx)
    (s : Scored) : Lex (ℤ × Lex (ℤ × WithTop ℚ)) :=
  toLex (-(s.score), toLex ((parseStart pd s.ev).getD 0, wDist hav ctx s.ev))

/-- Events whose `start_utc` parses — the restriction under which the
comparator is lexicographic. -/
def dateParses (pd : String → Option ℤ) (s : Scored) : Prop :=
  (parseStart pd s.ev).isSome = true

/-- Executable pairwise check: `r x y` holds for every pair `x` before
`y`. -/
def pairwiseB (r : α → α → Bool) : List α → Bool
  | [] => true
  | x :: xs => xs.all (r x) && pairwiseB r xs

/-! # Theorems -/

/-! ## Shared lemmas about the dedupe loop -/

theorem dedupeLoop_eq (key : α → String) :
    ∀ (seen : List String) (l : List α),
      dedupeLoop key seen l = dedupeSpec key (l.filter fun y => !(seen.contains (key y))) := by
  intro seen l
  induction l generalizing seen with
  | nil => simp [dedupeLoop, dedupeSpec]
  | cons e rest ih =>
    rw [dedupeLoop, List.filter_cons]
    by_cases h : seen.contains (key e)
    · rw [if_pos h, ih, h]
      simp only [Bool.not_true, Bool.false_eq_true, if_false]
    · have hb : seen.contains (key e) = false := by simpa using h
      rw [if_neg h, ih, hb]
      simp only [Bool.not_false, if_true]
      rw [show ∀ x xs, dedupeSpec key (x :: xs) =
            x :: dedupeSpec key (xs.filter fun y => key y != key x) from fun _ _ => by
          rw [dedupeSpec]]
      congr 1
      rw [List.filter_filter]
      congr 1
      apply List.filter_congr
      intro y _
      have hbne : (key y != key e) = !decide (key y = key e) := by
        by_cases hk : key y = key e <;> simp [hk]
      simp [List.contains_cons, Bool.not_or, Bool.and_comm, hbne]

/-- `lowerStr` maps the empty string, and only it, to the empty string. -/
theorem lowerStr_eq_empty {s : String} : lowerStr s = "" ↔ s = "" := by
  unfold lowerStr
  rw [String.ext_iff, String.ext_iff]
  simp

/-! ## C4 — EventDeduper -/

/-- C4 counterexample: the claim's composite key treats a missing `source`
as the empty string, so the two items below have different claimed keys and
the claim predicts both are kept; the code's key defaults a missing
`source` to `"tm"` and drops the second item. -/
theorem dedupe_missing_source_cex :
    specKeyTuple dupTmSource ≠ specKeyTuple dupMissingSource ∧
      dedupe [dupMissingSource, dupTmSource] = [dupMissingSource] := by
  constructor
  · decide
  · rfl

/-- C4 (amended): `dedupe` preserves first-occurrence order and removes
exactly the later items whose composite key string — the five fields joined
with `|`, a missing `source` defaulting to `"tm"` and other missing fields
to the empty string — equals an earlier item's key; fields outside the key
(such as `venue_name`) never matter. -/
theorem dedupe_eq_keepFirst : ∀ items, dedupe items = dedupeSpec keyOf items := by
  intro items
  unfold dedupe
  rw [dedupeLoop_eq]
  congr 1
  simp

/-! ## C6 — ArtistTierScore -/

/-- C6: the artist component of the score is exactly the spec's tier
lookup — liked 140, top 95, followed 75, preferred 40, otherwise 0 — on the
lowercased artist name, falling back to the lowercased event title when the
artist name is absent. -/
theorem artistScore_matches_spec (ctx : RankCtx) (e : EventItem) :
    artistScore ctx e = specArtistScore ctx e := by
  unfold artistScore specArtistScore toLc
  have h0 : lowerStr "" = "" := rfl
  by_cases h : e.artist_name = ""
  · simp [h, h0]
  · have hl : lowerStr e.artist_name ≠ "" := fun hc => h (lowerStr_eq_empty.mp hc)
    simp [h, hl]

/-! ## C7 — ArtistPoolBuilder -/

/-- C7: the artist pool built by the `/api/events` route equals the spec's
description — concatenate liked ++ top ++ followed, drop ignored entries,
deduplicate case-insensitively keeping first occurrences, truncate to the
cap. -/
theorem buildPool_matches_spec (liked top followed ignore : List String) (cap : ℕ) :
    buildPool liked top followed ignore cap = specArtistPool liked top followed ignore cap := by
  unfold buildPool specArtistPool uniquePreserveOrder
  rw [dedupeLoop_eq]
  simp only [List.contains_nil, Bool.not_false, List.filter_true]
  rw [List.filter_append, List.filter_append]

/-! ## Normalizer lemmas -/

theorem alnum_ne_space {c : Char} (h : alnumLower c = true) : c ≠ ' ' := by
  intro hc
  subst hc
  exact absurd h (by decide)

theorem squashAux_chars :
    ∀ (l : List Char) (b : Bool), ∀ c ∈ squashAux b l, normChar c := by
  intro l
  induction l with
  | nil =>
    intro b c hc
    simp [squashAux] at hc
  | cons x xs ih =>
    intro b c hc
    by_cases ha : alnumLower x
    · rw [squashAux, if_pos ha] at hc
      rcases List.mem_cons.mp hc with hc | hc
      · exact Or.inl (hc ▸ ha)
      · exact ih false c hc
    · rw [squashAux, if_neg (by simpa using ha)] at hc
      cases b with
      | true =>
        rw [if_pos rfl] at hc
        exact ih true c hc
      | false =>
        rw [if_neg (by simp)] at hc
        rcases List.mem_cons.mp hc with hc | hc
        · exact Or.inr hc
        · exact ih true c hc

theorem head_squashAux_true :
    ∀ l : List Char, (squashAux true l).head? ≠ some ' ' := by
  intro l
  induction l with
  | nil => simp [squashAux]
  | cons x xs ih =>
    by_cases ha : alnumLower x
    · rw [squashAux, if_pos ha]
      intro hc
      exact alnum_ne_space ha (by simpa using hc)
    · rw [squashAux, if_neg (by simpa using ha), if_pos rfl]
      exact ih

theorem chain_squashAux :
    ∀ (l : List Char) (b : Bool), List.Chain' noTwoSpaces (squashAux b l) := by
  intro l
  induction l with
  | nil =>
    intro b
    simp [squashAux]
  | cons x xs ih =>
    intro b
    by_cases ha : alnumLower x
    · rw [squashAux, if_pos ha]
      rw [List.chain'_cons']
      exact ⟨fun y _ hy => alnum_ne_space ha hy.1, ih false⟩
    · rw [squashAux, if_neg (by simpa using ha)]
      cases b with
      | true =>
        rw [if_pos rfl]
        exact ih true
      | false =>
        rw [if_neg (by simp)]
        rw [List.chain'_cons']
        refine ⟨fun y hy h2 => ?_, ih true⟩
        exact head_squashAux_true xs (by rw [hy, h2.2])

theorem squashAux_id :
    ∀ l : List Char, (∀ c ∈ l, normChar c) → List.Chain' noTwoSpaces l →
      squashAux false l = l ∧ (l.head? ≠ some ' ' → squashAux true l = l) := by
  intro l
  induction l with
  | nil =>
    intro _ _
    exact ⟨rfl, fun _ => rfl⟩
  | cons x xs ih =>
    intro hchars hchain
    rw [List.chain'_cons'] at hchain
    obtain ⟨hhead, htail⟩ := hchain
    have hxs := fun c hc => hchars c (List.mem_cons_of_mem x hc)
    rcases hchars x (List.mem_cons_self x xs) with ha | ha
    · constructor
      · rw [squashAux, if_pos ha, (ih hxs htail).1]
      · intro _
        rw [squashAux, if_pos ha, (ih hxs htail).1]
    · subst ha
      constructor
      · have hxsh : xs.head? ≠ some ' ' := by
          intro hc
          exact (hhead ' ' hc) ⟨rfl, rfl⟩
        rw [squashAux, if_neg (by decide), if_neg (by simp),
          (ih hxs htail).2 hxsh]
      · intro hc
        exact absurd rfl hc

theorem head?_dropWhile_not (p : Char → Bool) :
    ∀ (l : List Char) (c : Char), (l.dropWhile p).head? = some c → p c = false := by
  intro l
  induction l with
  | nil =>
    intro c hc
    simp at hc
  | cons x xs ih =>
    intro c hc
    by_cases hp : p x
    · rw [List.dropWhile_cons, if_pos hp] at hc
      exact ih c hc
    · rw [List.dropWhile_cons, if_neg (by simpa using hp)] at hc
      cases hc
      simpa using hp

theorem trimSpaces_prefix_dropWhile (l : List Char) :
    trimSpaces l <+: l.dropWhile isSp := by
  unfold trimSpaces
  obtain ⟨t, ht⟩ := List.dropWhile_suffix (l := (l.dropWhile isSp).reverse) isSp
  refine ⟨t.reverse, ?_⟩
  rw [← List.reverse_append, ht, List.reverse_reverse]

theorem trimSpaces_head (l : List Char) : (trimSpaces l).head? ≠ some ' ' := by
  obtain ⟨t, ht⟩ := trimSpaces_prefix_dropWhile l
  cases hout : trimSpaces l with
  | nil => simp
  | cons o os =>
    rw [hout] at ht
    intro hc
    have ho : o = ' ' := by simpa using hc
    have : (l.dropWhile isSp).head? = some o := by
      rw [← ht]
      rfl
    have := head?_dropWhile_not isSp l o this
    rw [ho] at this
    simp [isSp] at this

theorem trimSpaces_getLast (l : List Char) : (trimSpaces l).getLast? ≠ some ' ' := by
  unfold trimSpaces
  rw [List.getLast?_reverse]
  intro hc
  have := head?_dropWhile_not isSp (l.dropWhile isSp).reverse ' ' hc
  simp [isSp] at this

theorem trimSpaces_subset {l : List Char} {c : Char} (hc : c ∈ trimSpaces l) : c ∈ l := by
  obtain ⟨t, ht⟩ := trimSpaces_prefix_dropWhile l
  have h1 : c ∈ l.dropWhile isSp := by
    rw [← ht]
    exact List.mem_append_left _ hc
  exact (List.dropWhile_sublist isSp).subset h1

theorem trimSpaces_chain {l : List Char} (h : List.Chain' noTwoSpaces l) :
    List.Chain' noTwoSpaces (trimSpaces l) := by
  refine h.infix ?_
  exact ((trimSpaces_prefix_dropWhile l).isInfix.trans
    (List.dropWhile_suffix isSp).isInfix)

theorem dropWhile_isSp_id {l : List Char} (h : l.head? ≠ some ' ') :
    l.dropWhile isSp = l := by
  cases l with
  | nil => rfl
  | cons x xs =>
    have hx : isSp x = false := by
      simp only [isSp]
      simp only [List.head?_cons, ne_eq, Option.some.injEq] at h
      simpa using h
    rw [List.dropWhile_cons, hx]
    simp

theorem trimSpaces_id {l : List Char} (h1 : l.head? ≠ some ' ')
    (h2 : l.getLast? ≠ some ' ') : trimSpaces l = l := by
  unfold trimSpaces
  rw [dropWhile_isSp_id h1, dropWhile_isSp_id (by rwa [List.head?_reverse]),
    List.reverse_reverse]

theorem flatMap_id_of (f : Char → List Char) :
    ∀ l : List Char, (∀ c ∈ l, f c = [c]) → l.flatMap f = l := by
  intro l
  induction l with
  | nil => simp
  | cons x xs ih =>
    intro h
    rw [List.flatMap_cons, h x (List.mem_cons_self x xs),
      ih fun c hc => h c (List.mem_cons_of_mem x hc)]
    rfl

theorem map_id_of (f : Char → Char) :
    ∀ l : List Char, (∀ c ∈ l, f c = c) → l.map f = l := by
  intro l
  induction l with
  | nil => simp
  | cons x xs ih =>
    intro h
    rw [List.map_cons, h x (List.mem_cons_self x xs),
      ih fun c hc => h c (List.mem_cons_of_mem x hc)]

theorem normChar_nfkd {c : Char} (h : normChar c) : nfkdChar c = [c] := by
  have h1 : c ≠ 'é' := by
    intro hc
    subst hc
    exact absurd h (by decide)
  have h2 : c ≠ 'É' := by
    intro hc
    subst hc
    exact absurd h (by decide)
  rw [nfkdChar, if_neg h1, if_neg h2]

theorem normChar_combining {c : Char} (h : normChar c) : (!combining c) = true := by
  rcases h with h | h
  · simp only [alnumLower, Bool.or_eq_true, Bool.and_eq_true, decide_eq_true_eq] at h
    simp only [combining, Bool.not_eq_eq_eq_not, Bool.not_true, Bool.and_eq_false_iff,
      decide_eq_false_iff_not]
    omega
  · subst h
    decide

theorem normChar_apos {c : Char} (h : normChar c) : aposChar c = c := by
  rcases h with h | h
  · simp only [alnumLower, Bool.or_eq_true, Bool.and_eq_true, decide_eq_true_eq] at h
    rw [aposChar, if_neg (by omega)]
  · subst h
    decide

theorem normChar_lower {c : Char} (h : normChar c) : lowerChar c = c := by
  rcases h with h | h
  · simp only [alnumLower, Bool.or_eq_true, Bool.and_eq_true, decide_eq_true_eq] at h
    rw [lowerChar, if_neg (by simp only [Bool.and_eq_true, decide_eq_true_eq]; omega)]
  · subst h
    decide

theorem normList_chars {l : List Char} : ∀ c ∈ normList l, normChar c := by
  intro c hc
  unfold normList at hc
  exact squashAux_chars _ false c (trimSpaces_subset hc)

theorem normList_id (l : List Char) : normList (normList l) = normList l := by
  have hchars := fun c hc => normList_chars (l := l) c hc
  conv_lhs => rw [normList]
  rw [flatMap_id_of _ _ fun c hc => normChar_nfkd (hchars c hc),
    List.filter_eq_self.mpr fun c hc => normChar_combining (hchars c hc),
    map_id_of _ _ fun c hc => normChar_apos (hchars c hc),
    map_id_of _ _ fun c hc => normChar_lower (hchars c hc)]
  have hchain : List.Chain' noTwoSpaces (normList l) := by
    rw [normList]
    exact trimSpaces_chain (chain_squashAux _ false)
  rw [(squashAux_id (normList l) hchars hchain).1]
  refine trimSpaces_id ?_ ?_
  · rw [normList]
    exact trimSpaces_head _
  · rw [normList]
    exact trimSpaces_getLast _

/-! ## C8 — NameNormalizer -/

/-- C8: `norm` is total (an absent argument yields the empty string),
idempotent on every string, and case/diacritic-insensitive on the spec's
example pair. -/
theorem nameNormalizer_total_idempotent :
    norm none = "" ∧ (∀ s : String, norm (some (norm (some s))) = norm (some s)) ∧
      norm (some "Beyoncé") = norm (some "beyonce") := by
  refine ⟨by decide, fun s => ?_, by decide⟩
  show String.mk (normList (String.mk (normList s.data)).data) = String.mk (normList s.data)
  rw [show (String.mk (normList s.data)).data = normList s.data from rfl, normList_id]

/-! ## C1 — identity-mode matching -/

/-- C1: when a performer id and a (nonempty) expected artist name are both
supplied, a record whose every embedded performer fails the conjunction
"id equals `ensureId` and normalized name equals the normalized expected
name" yields no `EventItem`.  This also gives the only-if direction of
acceptance: in this mode an accepted performer always satisfies both
conditions. -/
theorem identityMode_requires_id_and_name
    (artistName i en : String) (ev : TMEvent)
    (hi : i ≠ "") (he : en ≠ "")
    (h : ∀ a ∈ ev.attractions, ¬(a.id = i ∧ norm (some a.name) = norm (some en))) :
    mapEvent1 artistName (some i) (some en) ev = none := by
  have hjs : jsOrStr (some en) artistName = en := by simp [jsOrStr, he]
  have hfind :
      ev.attractions.find? (performerOk (some i) (some en) (norm (some en))) = none := by
    rw [List.find?_eq_none]
    intro a ha hok
    have hna := h a ha
    unfold performerOk truthy at hok
    have hib : (i != "") = true := by simpa using hi
    have heb : (en != "") = true := by simpa using he
    simp only [hib, heb, Bool.and_self, if_true, Option.getD_some, Bool.and_eq_true] at hok
    obtain ⟨hid, hname⟩ := hok
    by_cases hne : norm (some en) != ""
    · rw [if_pos hne] at hname
      exact hna ⟨by simpa using hid.2, by simpa using hname⟩
    · rw [if_neg hne] at hname
      exact absurd hname (by simp)
  unfold mapEvent1
  rw [hjs]
  simp only [hfind]

/-- C1 witness: id `K1` matches but the performer name `Adelle X` differs
from the expected `Adele` after normalization, so the record is dropped. -/
theorem identityMode_requires_id_and_name_witness :
    ("K1" ≠ "" ∧ "Adele" ≠ "" ∧
        ∀ a ∈ wEvIdOnly.attractions,
          ¬(a.id = "K1" ∧ norm (some a.name) = norm (some "Adele"))) ∧
      mapEvent1 "Adele" (some "K1") (some "Adele") wEvIdOnly = none :=
  ⟨⟨by decide, by decide, by decide⟩,
    identityMode_requires_id_and_name "Adele" "K1" "Adele" wEvIdOnly
      (by decide) (by decide) (by decide)⟩

/-! ## C2 — TitleGuard -/

/-- C2: a name-mode record (no `ensureId`) whose normalized title matches a
banned marker term yields no `EventItem`, whatever else holds; an
identity-mode record (nonempty `ensureId`) with an accepted performer
yields an `EventItem` regardless of its title. -/
theorem titleGuard_nameMode_only
    (artistName : String) (expectedName : Option String) (ev : TMEvent)
    (i : String) (hi : i ≠ "") :
    (bannedTitleStr (norm (some ev.name)) = true →
      mapEvent1 artistName none expectedName ev = none)
    ∧ ((∃ a ∈ ev.attractions,
          performerOk (some i) expectedName
            (norm (some (jsOrStr expectedName artistName))) a = true) →
        (mapEvent1 artistName (some i) expectedName ev).isSome = true) := by
  constructor
  · intro hban
    unfold mapEvent1
    cases hfind : ev.attractions.find?
        (performerOk none expectedName (norm (some (jsOrStr expectedName artistName)))) with
    | none => simp [hfind]
    | some m =>
      have hmok := List.find?_some hfind
      have hne : (norm (some (jsOrStr expectedName artistName)) != "") = true := by
        unfold performerOk truthy at hmok
        by_cases hc : (norm (some (jsOrStr expectedName artistName)) != "") = true
        · exact hc
        · rw [if_neg hc] at hmok
          simp at hmok
      simp [hfind, truthy, hne, hban]
  · rintro ⟨a, ha, hok⟩
    have hsome : (ev.attractions.find?
        (performerOk (some i) expectedName
          (norm (some (jsOrStr expectedName artistName))))).isSome := by
      rw [List.find?_isSome]
      exact ⟨a, ha, hok⟩
    obtain ⟨m, hm⟩ := Option.isSome_iff_exists.mp hsome
    have hib : (i != "") = true := by simpa using hi
    unfold mapEvent1
    simp [hm, truthy, hib]

/-- C2 witness: the title "Tribute to Queen" is rejected on a name-mode
match of performer "Queen", and accepted on an identity-mode match with the
official attraction id `K9`. -/
theorem titleGuard_nameMode_only_witness :
    mapEvent1 "Queen" none none wEvTribute = none ∧
      (mapEvent1 "Queen" (some "K9") none wEvTribute).isSome = true :=
  ⟨(titleGuard_nameMode_only "Queen" none wEvTribute "K9" (by decide)).1 (by decide),
    (titleGuard_nameMode_only "Queen" none wEvTribute "K9" (by decide)).2
      ⟨{ id := "K9", name := "Queen" }, by decide, by decide⟩⟩

/-! ## C3 — name-mode exact normalized equality -/

/-- C3: in name mode a performer is accepted exactly when its normalized
name equals the normalized target name (the target string being
`expectedName || artistName`); there is no phrase-containment
relaxation. -/
theorem nameMode_exact_equality
    (artistName : String) (expectedName : Option String) (a : TMAttraction)
    (h : norm (some (jsOrStr expectedName artistName)) ≠ "") :
    performerOk none expectedName (norm (some (jsOrStr expectedName artistName))) a = true
      ↔ norm (some a.name) = norm (some (jsOrStr expectedName artistName)) := by
  have hb : (norm (some (jsOrStr expectedName artistName)) != "") = true := by
    simpa using h
  unfold performerOk truthy
  simp [hb]

/-- C3 witness: the multi-word query "Chris Brown" does not accept the
longer performer name "Chris Brown & Friends" that merely contains it,
since their normalized forms differ. -/
theorem nameMode_exact_equality_witness :
    (norm (some (jsOrStr none "Chris Brown")) ≠ "" ∧
        norm (some "Chris Brown & Friends") ≠ norm (some (jsOrStr none "Chris Brown"))) ∧
      (performerOk none none (norm (some (jsOrStr none "Chris Brown")))
          { id := "AT1", name := "Chris Brown & Friends" } = true
        ↔ norm (some "Chris Brown & Friends") = norm (some (jsOrStr none "Chris Brown"))) :=
  ⟨⟨by decide, by decide⟩,
    nameMode_exact_equality "Chris Brown" none
      { id := "AT1", name := "Chris Brown & Friends" } (by decide)⟩

/-! ## C5 — Ranker ordering -/

theorem pairwiseB_iff (r : α → α → Bool) :
    ∀ l : List α, pairwiseB r l = true ↔ List.Pairwise (fun x y => r x y = true) l := by
  intro l
  induction l with
  | nil => simp [pairwiseB]
  | cons x xs ih =>
    simp [pairwiseB, List.pairwise_cons, ih, List.all_eq_true, and_comm]

unseal Rat.add Rat.sub Rat.mul Rat.inv in
/-- C5 counterexample: with all scores equal, event `b` (unparseable date,
5 miles) is placed before event `c` (parseable date, 1 mile) in the output,
a pair that the claimed order forbids under every reading — `c` has both
the parseable date and the smaller distance.  The comparator is cyclic
here (`a` before `c` by date, `c` before `b` and `b` before `a` by
distance), so it is not a total order either. -/
theorem rank_claimed_order_cex :
    ¬ List.Pairwise (fun a b => claimRelW cexHav cexPd cexCtx a b = true)
      (rank cexHav cexPd 0 [cexEvB, cexEvA, cexEvC] cexCtx) := by
  rw [← pairwiseB_iff]
  decide

theorem ordering_then_eq_lt {o₁ o₂ : Ordering} :
    o₁.then o₂ = .lt ↔ o₁ = .lt ∨ (o₁ = .eq ∧ o₂ = .lt) := by
  cases o₁ <;> simp [Ordering.then]

theorem ordering_then_eq_eq {o₁ o₂ : Ordering} :
    o₁.then o₂ = .eq ↔ o₁ = .eq ∧ o₂ = .eq := by
  cases o₁ <;> simp [Ordering.then]

theorem ordering_then_ne_gt {o₁ o₂ : Ordering} :
    o₁.then o₂ ≠ .gt ↔ o₁ = .lt ∨ (o₁ = .eq ∧ o₂ ≠ .gt) := by
  cases o₁ <;> simp [Ordering.then]

theorem cmpOf_eq_lt {α : Type} [LinearOrder α] {x y : α} :
    cmpOf x y = .lt ↔ x < y := by
  rcases lt_trichotomy x y with h | h | h
  · simp [cmpOf, h]
  · simp [cmpOf, h, lt_irrefl]
  · simp [cmpOf, h, lt_asymm h, not_lt_of_gt h]

theorem cmpOf_eq_eq {α : Type} [LinearOrder α] {x y : α} :
    cmpOf x y = .eq ↔ x = y := by
  rcases lt_trichotomy x y with h | h | h
  · simp [cmpOf, h, ne_of_lt h]
  · simp [cmpOf, h, lt_irrefl]
  · simp [cmpOf, h, lt_asymm h, not_lt_of_gt h, ne_of_gt h]

theorem cmpOf_ne_gt {α : Type} [LinearOrder α] {x y : α} :
    cmpOf x y ≠ .gt ↔ x ≤ y := by
  rcases lt_trichotomy x y with h | h | h
  · simp [cmpOf, h, le_of_lt h]
  · simp [cmpOf, h, lt_irrefl, le_refl]
  · simp [cmpOf, h, lt_asymm h, not_lt_of_gt h, not_le_of_gt h]

theorem strLtData_asymm :
    ∀ l₁ l₂ : List Char, strLtData l₁ l₂ = true → strLtData l₂ l₁ = false := by
  intro l₁
  induction l₁ with
  | nil =>
    intro l₂ _
    cases l₂ <;> rfl
  | cons a as ih =>
    intro l₂ h
    cases l₂ with
    | nil => simp [strLtData] at h
    | cons b bs =>
      by_cases h1 : a.toNat < b.toNat
      · simp [strLtData, h1, Nat.lt_asymm h1]
      · by_cases h2 : b.toNat < a.toNat
        · simp [strLtData, h1, h2] at h
        · simp [strLtData, h1, h2] at h
          simp [strLtData, h1, h2, ih bs h]

theorem strLtData_eq_of_not :
    ∀ l₁ l₂ : List Char, strLtData l₁ l₂ = false → strLtData l₂ l₁ = false → l₁ = l₂ := by
  intro l₁
  induction l₁ with
  | nil =>
    intro l₂ h _
    cases l₂ with
    | nil => rfl
    | cons b bs => simp [strLtData] at h
  | cons a as ih =>
    intro l₂ h h'
    cases l₂ with
    | nil => simp [strLtData] at h'
    | cons b bs =>
      by_cases h1 : a.toNat < b.toNat
      · simp [strLtData, h1] at h
      · by_cases h2 : b.toNat < a.toNat
        · simp [strLtData, h2] at h'
        · have hab : a = b := by
            have : a.toNat = b.toNat := by omega
            calc a = Char.ofNat a.toNat := (Char.ofNat_toNat a).symm
              _ = Char.ofNat b.toNat := by rw [this]
              _ = b := Char.ofNat_toNat b
          simp [strLtData, h1, h2] at h h'
          rw [hab, ih bs h h']

theorem strLtData_trans :
    ∀ l₁ l₂ l₃ : List Char, strLtData l₁ l₂ = true → strLtData l₂ l₃ = true →
      strLtData l₁ l₃ = true := by
  intro l₁
  induction l₁ with
  | nil =>
    intro l₂ l₃ h h'
    cases l₂ with
    | nil => simp [strLtData] at h
    | cons b bs =>
      cases l₃ with
      | nil => simp [strLtData] at h'
      | cons c cs => rfl
  | cons a as ih =>
    intro l₂ l₃ h h'
    cases l₂ with
    | nil => simp [strLtData] at h
    | cons b bs =>
      cases l₃ with
      | nil => simp [strLtData] at h'
      | cons c cs =>
        by_cases hab : a.toNat < b.toNat <;> by_cases hbc : b.toNat < c.toNat
        · have hac : a.toNat < c.toNat := by omega
          simp [strLtData, hac]
        · by_cases hcb : c.toNat < b.toNat
          · simp [strLtData, hbc, hcb] at h'
          · have hac : a.toNat < c.toNat := by omega
            simp [strLtData, hac]
        · by_cases hba : b.toNat < a.toNat
          · simp [strLtData, hab, hba] at h
          · have hac : a.toNat < c.toNat := by omega
            simp [strLtData, hac]
        · by_cases hba : b.toNat < a.toNat
          · simp [strLtData, hab, hba] at h
          · by_cases hcb : c.toNat < b.toNat
            · simp [strLtData, hbc, hcb] at h'
            · have hac : ¬ a.toNat < c.toNat := by omega
              have hca : ¬ c.toNat < a.toNat := by omega
              simp [strLtData, hab, hba] at h
              simp [strLtData, hbc, hcb] at h'
              simp [strLtData, hac, hca, ih bs cs h h']

theorem strLe_total (s t : String) : strLe s t = true ∨ strLe t s = true := by
  unfold strLe strLt
  by_cases h : strLtData t.data s.data = true
  · right
    simp [strLtData_asymm _ _ h]
  · left
    simp [Bool.not_eq_true] at h
    simp [h]

theorem strLe_trans {s t u : String} (h1 : strLe s t = true) (h2 : strLe t u = true) :
    strLe s u = true := by
  unfold strLe strLt at h1 h2 ⊢
  simp only [Bool.not_eq_true'] at h1 h2 ⊢
  by_contra hc
  simp only [Bool.not_eq_false] at hc
  by_cases hst : strLtData s.data t.data = true
  · exact absurd (strLtData_trans _ _ _ hc hst) (by simp [h2])
  · have := strLtData_eq_of_not _ _ (by simpa using hst) h1
    rw [← this] at h2
    simp [hc] at h2

theorem cmpStr_ne_gt {s t : String} : cmpStr s t ≠ .gt ↔ strLe s t = true := by
  unfold cmpStr strLe
  by_cases h1 : strLt s t = true
  · have h2 : strLt t s = false := strLtData_asymm _ _ h1
    simp [h1, h2]
  · by_cases h2 : strLt t s = true
    · simp [h1, h2]
    · simp [h1, h2]

/-- On events whose start dates parse, the sort relation is exactly the
lexicographic order on `sortKey`, with the `localeCompare` tie-break last. -/
theorem rankRel_iff_char (hav : ℚ → ℚ → ℚ → ℚ → ℚ) (pd : String → Option ℤ)
    (ctx : RankCtx) {a b : Scored}
    (ha : dateParses pd a) (hb : dateParses pd b) :
    rankRel hav pd ctx a b ↔
      (sortKey hav pd ctx a < sortKey hav pd ctx b ∨
        (sortKey hav pd ctx a = sortKey hav pd ctx b ∧
          strLe a.ev.event_name b.ev.event_name = true)) := by
  obtain ⟨da, hda⟩ := Option.isSome_iff_exists.mp ha
  obtain ⟨db, hdb⟩ := Option.isSome_iff_exists.mp hb
  unfold rankRel cmpRank sortKey wDist
  rw [hda, hdb]
  rw [Prod.Lex.lt_iff, Prod.Lex.lt_iff, toLex_inj, Prod.mk.injEq, toLex_inj, Prod.mk.injEq]
  simp only [hda, hdb, Option.getD_some]
  cases hea : evDist hav ctx a.ev <;> cases heb : evDist hav ctx b.ev <;>
    simp [ordering_then_ne_gt, ordering_then_eq_lt, ordering_then_eq_eq,
      cmpOf_eq_lt, cmpOf_eq_eq, cmpOf_ne_gt, cmpStr_ne_gt, neg_lt_neg_iff, neg_inj,
      WithTop.coe_lt_coe, WithTop.coe_lt_top, WithTop.coe_eq_coe]
  all_goals simp only [eq_comm]
  all_goals tauto

/-- On events whose start dates parse, the claim's amended relation is the
same order. -/
theorem amendRel_iff_char (hav : ℚ → ℚ → ℚ → ℚ → ℚ) (pd : String → Option ℤ)
    (ctx : RankCtx) {a b : Scored}
    (ha : dateParses pd a) (hb : dateParses pd b) :
    amendRel hav pd ctx a b ↔
      (sortKey hav pd ctx a < sortKey hav pd ctx b ∨
        (sortKey hav pd ctx a = sortKey hav pd ctx b ∧
          strLe a.ev.event_name b.ev.event_name = true)) := by
  obtain ⟨da, hda⟩ := Option.isSome_iff_exists.mp ha
  obtain ⟨db, hdb⟩ := Option.isSome_iff_exists.mp hb
  unfold amendRel sortKey wDist
  rw [hda, hdb]
  rw [Prod.Lex.lt_iff, Prod.Lex.lt_iff, toLex_inj, Prod.mk.injEq, toLex_inj, Prod.mk.injEq]
  simp only [hda, hdb, Option.getD_some]
  cases hea : evDist hav ctx a.ev <;> cases heb : evDist hav ctx b.ev <;>
    simp [claimDateEarlier, distLtB, neg_lt_neg_iff, neg_inj,
      WithTop.coe_lt_coe, WithTop.coe_lt_top, WithTop.coe_eq_coe]
  all_goals simp only [eq_comm]
  all_goals tauto

/-- Insertion into a sorted list stays sorted, with totality and
transitivity needed only on a predicate all elements satisfy. -/
theorem pairwise_orderedInsert_res {α : Type} (r : α → α → Prop) [DecidableRel r]
    (P : α → Prop)
    (htot : ∀ x y, P x → P y → r x y ∨ r y x)
    (htrans : ∀ x y z, P x → P y → P z → r x y → r y z → r x z) :
    ∀ (l : List α) (a : α), P a → (∀ x ∈ l, P x) → l.Pairwise r →
      (l.orderedInsert r a).Pairwise r := by
  intro l
  induction l with
  | nil =>
    intro a _ _ _
    simp
  | cons b bs ih =>
    intro a ha hl hp
    rw [List.orderedInsert]
    by_cases hab : r a b
    · rw [if_pos hab, List.pairwise_cons]
      refine ⟨?_, hp⟩
      intro x hx
      rcases List.mem_cons.mp hx with hx | hx
      · exact hx ▸ hab
      · exact htrans a b x ha (hl b (List.mem_cons_self b bs)) (hl x (List.mem_cons_of_mem b hx))
          hab ((List.pairwise_cons.mp hp).1 x hx)
    · rw [if_neg hab, List.pairwise_cons]
      rw [List.pairwise_cons] at hp
      refine ⟨?_, ih a ha (fun x hx => hl x (List.mem_cons_of_mem b hx)) hp.2⟩
      intro x hx
      rcases (List.mem_orderedInsert r).mp hx with hx | hx
      · exact hx ▸ (htot a b ha (hl b (List.mem_cons_self b bs))).resolve_left hab
      · exact hp.1 x hx

/-- Insertion sort yields a pairwise-sorted list, with totality and
transitivity needed only on a predicate all elements satisfy. -/
theorem pairwise_insertionSort_res {α : Type} (r : α → α → Prop) [DecidableRel r]
    (P : α → Prop)
    (htot : ∀ x y, P x → P y → r x y ∨ r y x)
    (htrans : ∀ x y z, P x → P y → P z → r x y → r y z → r x z) :
    ∀ l : List α, (∀ x ∈ l, P x) → (l.insertionSort r).Pairwise r := by
  intro l
  induction l with
  | nil =>
    intro _
    simp
  | cons a l ih =>
    intro hl
    rw [List.insertionSort]
    refine pairwise_orderedInsert_res r P htot htrans _ a
      (hl a (List.mem_cons_self a l)) ?_ (ih fun x hx => hl x (List.mem_cons_of_mem a hx))
    intro x hx
    exact hl x (List.mem_cons_of_mem a ((List.perm_insertionSort r l).mem_iff.mp hx))

/-- C5 (amended): when every event's `start_utc` parses, every pair of the
ranker's output is ordered by strictly greater score, then strictly earlier
start, then strictly smaller distance-to-user (missing distance counting as
infinite), then lexicographically smaller-or-equal event name. -/
theorem rank_sorted_of_parseable (hav : ℚ → ℚ → ℚ → ℚ → ℚ)
    (pd : String → Option ℤ) (now : ℤ) (ctx : RankCtx) (events : List EventItem)
    (h : ∀ e ∈ events, (pd (e.start_utc.getD "")).isSome = true) :
    List.Pairwise (amendRel hav pd ctx) (rank hav pd now events ctx) := by
  have hscored : ∀ s ∈ (events.map fun e =>
      ({ ev := e,
         score := artistScore ctx e + locScore hav ctx e + dateScore pd now e } : Scored)),
      dateParses pd s := by
    intro s hs
    obtain ⟨e, he, rfl⟩ := List.mem_map.mp hs
    exact h e he
  have htot : ∀ x y, dateParses pd x → dateParses pd y →
      rankRel hav pd ctx x y ∨ rankRel hav pd ctx y x := by
    intro x y hx hy
    rw [rankRel_iff_char hav pd ctx hx hy, rankRel_iff_char hav pd ctx hy hx]
    rcases lt_trichotomy (sortKey hav pd ctx x) (sortKey hav pd ctx y) with hk | hk | hk
    · exact Or.inl (Or.inl hk)
    · rcases strLe_total x.ev.event_name y.ev.event_name with hn | hn
      · exact Or.inl (Or.inr ⟨hk, hn⟩)
      · exact Or.inr (Or.inr ⟨hk.symm, hn⟩)
    · exact Or.inr (Or.inl hk)
  have htrans : ∀ x y z, dateParses pd x → dateParses pd y → dateParses pd z →
      rankRel hav pd ctx x y → rankRel hav pd ctx y z → rankRel hav pd ctx x z := by
    intro x y z hx hy hz hxy hyz
    rw [rankRel_iff_char hav pd ctx hx hy] at hxy
    rw [rankRel_iff_char hav pd ctx hy hz] at hyz
    rw [rankRel_iff_char hav pd ctx hx hz]
    rcases hxy with hk1 | ⟨he1, hn1⟩ <;> rcases hyz with hk2 | ⟨he2, hn2⟩
    · exact Or.inl (lt_trans hk1 hk2)
    · exact Or.inl (he2 ▸ hk1)
    · exact Or.inl (he1 ▸ hk2)
    · exact Or.inr ⟨he1.trans he2, strLe_trans hn1 hn2⟩
  have hpair : (rank hav pd now events ctx).Pairwise (rankRel hav pd ctx) :=
    pairwise_insertionSort_res _ (dateParses pd) htot htrans _ hscored
  have hmem : ∀ s ∈ rank hav pd now events ctx, dateParses pd s := by
    intro s hs
    exact hscored s ((List.perm_insertionSort _ _).mem_iff.mp hs)
  exact hpair.imp_of_mem fun {x y} hx hy hr =>
    (amendRel_iff_char hav pd ctx (hmem x hx) (hmem y hy)).mpr
      ((rankRel_iff_char hav pd ctx (hmem x hx) (hmem y hy)).mp hr)

/-- C5 amended-claim witness: two events with parseable dates come out
pairwise ordered. -/
theorem rank_sorted_of_parseable_witness :
    List.Pairwise (amendRel cexHav cexPd cexCtx)
      (rank cexHav cexPd 0 [wEvR1, wEvR2] cexCtx) :=
  rank_sorted_of_parseable cexHav cexPd 0 cexCtx [wEvR1, wEvR2] (by decide)

/-! ## C9 — ConcurrencyLimitedMapper -/

/-- C9: with at least one worker, an item whose worker throws contributes
zero outputs and aborts nothing; the call resolves with exactly the
flattened outputs of the non-failing items (as a multiset — cross-item
order is scheduling-dependent), and an empty input yields an empty
result. -/
theorem runLimited_failure_tolerant {α β ε : Type} (inputs sched : List α)
    (worker : α → Except ε (JsOut β)) (limit : ℕ)
    (hl : 1 ≤ limit) (hs : sched.Perm inputs) :
    (runLimited inputs worker limit sched).Perm (inputs.flatMap (contribution worker))
    ∧ (∀ x e, worker x = Except.error e → contribution worker x = [])
    ∧ (inputs = [] → runLimited inputs worker limit sched = []) := by
  refine ⟨?_, ?_, ?_⟩
  · unfold runLimited
    by_cases h0 : inputs = []
    · subst h0
      have hs' : sched = [] := List.Perm.eq_nil hs
      simp [hs']
    · have hlen : inputs.length ≠ 0 := fun hc => h0 (List.length_eq_zero.mp hc)
      have hmin : 0 < Nat.min limit inputs.length :=
        lt_min (Nat.lt_of_lt_of_le Nat.zero_lt_one hl) (Nat.pos_of_ne_zero hlen)
      rw [if_neg hmin.ne']
      exact hs.flatMap_right _
  · intro x e h
    simp [contribution, h]
  · intro h
    subst h
    have hs' : sched = [] := List.Perm.eq_nil hs
    simp [runLimited, hs']

set_option maxRecDepth 4000 in
/-- C9 witness: limit 2 over the five inputs `1..5` with item `3` throwing;
the result is a permutation of the outputs of items 1, 2, 4, 5. -/
theorem runLimited_failure_tolerant_witness :
    (runLimited [1, 2, 3, 4, 5] wWorker 2 [2, 1, 4, 3, 5]).Perm
      ([1, 2, 3, 4, 5].flatMap (contribution wWorker))
    ∧ (∀ x e, wWorker x = Except.error e → contribution wWorker x = [])
    ∧ ([1, 2, 3, 4, 5] = ([] : List ℕ) →
        runLimited [1, 2, 3, 4, 5] wWorker 2 [2, 1, 4, 3, 5] = []) :=
  runLimited_failure_tolerant [1, 2, 3, 4, 5] [2, 1, 4, 3, 5] wWorker 2
    (by decide) (by decide)

/-! ## C10 — response truncation vs count -/

/-- C10: the `/api/events` payload reports the full ranked length as
`count` but returns only the first 220 events, so a ranked list longer than
220 yields a `count` strictly greater than the number of events
returned. -/
theorem apiEvents_count_exceeds_events (ranked : List Scored) :
    (apiEventsPayload ranked).2 = ranked.take 220 ∧
      (apiEventsPayload ranked).1 = ranked.length ∧
      (220 < ranked.length →
        (apiEventsPayload ranked).2.length < (apiEventsPayload ranked).1) := by
  refine ⟨rfl, rfl, fun h => ?_⟩
  simp only [apiEventsPayload, List.length_take]
  omega

set_option maxRecDepth 4000 in
/-- C10 witness: a ranked list of 221 events is truncated to 220 returned
events while `count` reports 221. -/
theorem apiEvents_count_exceeds_events_witness :
    220 < (List.replicate 221 wScored).length ∧
      (apiEventsPayload (List.replicate 221 wScored)).2.length <
        (apiEventsPayload (List.replicate 221 wScored)).1 :=
  ⟨by simp, (apiEvents_count_exceeds_events (List.replicate 221 wScored)).2.2 (by simp)⟩

end ConcertsFinder
